import Mathlib

/-!
# bazel-compdb: the extraction core of `internal/runner`

A shallow embedding of `findSourceArg`, `findOutputArg`, `assembleBazelArgs`, the
record-building loop of `Run` and the bytes handed to the file writer by
`writeCompileCommands`, followed by the properties proved about them.

Conventions of the embedding.

* A Go `string` is a Lean `String`, a sequence of Unicode scalar values. The argument
  strings of an action are proto3 `string` fields, which the decoder only accepts when
  they are valid UTF-8, so nothing is lost. `len` is the UTF-8 byte length, as in Go.
* A read `args[i]` and a slice `arg[n:]` can fail at run time in Go. Both are modelled
  as partial operations, and a function that performs them returns `none` when one of
  them fails.
* A Go slice value is either `nil` or a non-nil sequence: `encoding/json` tells the two
  apart.
-/

namespace BazelCompdb

/-! ## Go strings -/

/-- Go `len(s)`: the number of bytes of `s`. -/
def len (s : String) : Nat := s.utf8ByteSize

/-- Go `s[n:]`. It fails (`none`) when `n` exceeds `len s`. In `findOutputArg` the
offset always stands right behind a prefix of `n` one-byte characters, which is why
dropping `n` bytes is dropping `n` characters. -/
def sliceFrom (s : String) (n : Nat) : Option String :=
  if n ≤ len s then some ⟨s.data.drop n⟩ else none

namespace strings

/-- Go `strings.HasPrefix`. -/
def HasPrefix (s pre : String) : Bool := pre.data.isPrefixOf s.data

/-- Go `strings.HasSuffix`. -/
def HasSuffix (s suffix : String) : Bool := suffix.data.isSuffixOf s.data

/-- Go `unicode.ToLower`: ASCII is decided in place, every other rune is looked up in
the Unicode case table, which is the parameter `caseTable`. -/
def toLowerRune (caseTable : Char → Char) (r : Char) : Char :=
  if r.toNat ≤ 0x7F then
    if 'A'.toNat ≤ r.toNat ∧ r.toNat ≤ 'Z'.toNat then Char.ofNat (r.toNat + ('a'.toNat - 'A'.toNat))
    else r
  else caseTable r

/-- Go `strings.ToLower`: every rune mapped through `unicode.ToLower`. -/
def ToLower (caseTable : Char → Char) (s : String) : String :=
  ⟨s.data.map (toLowerRune caseTable)⟩

end strings

open strings

/-! ## `runner.go` -/

/-- The map literal `sourceExtensions`, as its list of entries. -/
def sourceExtensions : List (String × List String) :=
  [ ("CppCompile", ["c", "cc", "cpp", "cxx", "c++"]),
    ("ObjcCompile", ["c", "cc", "cpp", "cxx", "c++", "m", "mm"]),
    ("CudaCompile", ["cu", "cc", "cpp"]) ]

/-- The inner loop of `findSourceArg`: does `lower` end with `"." + ext` for one of
the extensions? -/
def matchesExt (lower : String) : List String → Bool
  | [] => false
  | ext :: exts => if HasSuffix lower ("." ++ ext) then true else matchesExt lower exts

/-- The outer loop of `findSourceArg` over the remaining arguments. -/
def findSourceArgLoop (caseTable : Char → Char) (exts : List String) : List String → String
  | [] => ""
  | arg :: rest =>
    if arg = "" ∨ HasPrefix arg "-" then findSourceArgLoop caseTable exts rest
    else if matchesExt (ToLower caseTable arg) exts then arg
    else findSourceArgLoop caseTable exts rest

/-- Embedding of `findSourceArg`. -/
def findSourceArg (caseTable : Char → Char) (mnemonic : String) (args : List String) : String :=
  match sourceExtensions.lookup mnemonic with
  | none => ""
  | some exts => findSourceArgLoop caseTable exts args

/-- What one pass through the body of the loop of `findOutputArg` does. -/
inductive Iter where
  /-- The body executes `return v`. -/
  | ret (v : String)
  /-- The body falls out of the `switch` (or hits `continue`): on to `i + 1`. -/
  | next
  /-- A read or a slice is out of range: run-time panic. -/
  | fault
deriving DecidableEq, Repr

/-- The tail shared by the `/Fo` and `-Fo` cases: `val` if non-empty, else `args[i+1]`
when `i+1 < len(args)`. -/
def msvcValue (args : List String) (i : Nat) (arg : String) : Iter :=
  match sliceFrom arg 3 with
  | none => Iter.fault
  | some val =>
    if val ≠ "" then Iter.ret val
    else if i + 1 < args.length then
      match args[i + 1]? with
      | none => Iter.fault
      | some v => Iter.ret v
    else Iter.next

/-- The body of the loop of `findOutputArg` at index `i`. -/
def findOutputArgBody (args : List String) (i : Nat) : Iter :=
  match args[i]? with
  | none => Iter.fault
  | some arg =>
    if arg = "" then Iter.next
    else if arg = "-o" ∨ arg = "--output" then
      if i + 1 < args.length then
        match args[i + 1]? with
        | none => Iter.fault
        | some v => Iter.ret v
      else Iter.next
    else if HasPrefix arg "-o" ∧ len arg > 2 then
      match sliceFrom arg 2 with
      | none => Iter.fault
      | some v => Iter.ret v
    else if HasPrefix arg "--output=" then
      match sliceFrom arg (len "--output=") with
      | none => Iter.fault
      | some val => if val ≠ "" then Iter.ret val else Iter.next
    else if HasPrefix arg "/Fo" then msvcValue args i arg
    else if HasPrefix arg "-Fo" then msvcValue args i arg
    else Iter.next

/-- The loop `for i := 0; i < len(args); i++` of `findOutputArg`, entered at `i`.
`none` is a run-time panic. -/
def findOutputArgFrom (args : List String) (i : Nat) : Option String :=
  if i < args.length then
    match findOutputArgBody args i with
    | Iter.ret v => some v
    | Iter.fault => none
    | Iter.next => findOutputArgFrom args (i + 1)
  else some ""
termination_by args.length - i

/-- Embedding of `findOutputArg`. -/
def findOutputArg (args : List String) : Option String :=
  findOutputArgFrom args 0

/-- A decoded action, as far as `Run` reads it: `GetMnemonic()` and `GetArguments()`. -/
structure Action where
  mnemonic : String
  arguments : List String
deriving DecidableEq, Repr

/-- The struct `compileCommand` of `compile_commands.go`. -/
structure compileCommand where
  Directory : String
  Arguments : List String
  File : String
  Output : String
deriving DecidableEq, Repr

/-- A Go slice value: the `nil` slice, or a non-nil slice with its elements. -/
inductive Slice (α : Type) where
  | nil
  | elems (xs : List α)
deriving DecidableEq, Repr

/-- The elements of a slice, `nil` having none. -/
def Slice.toList {α : Type} : Slice α → List α
  | Slice.nil => []
  | Slice.elems xs => xs

/-- Go `append(s, x)`: the result is never `nil`. -/
def Slice.append {α : Type} (s : Slice α) (x : α) : Slice α :=
  Slice.elems (s.toList ++ [x])

/-- The loop `for _, action := range container.GetActions()` of `Run`, with the slice
`commands` as the state carried through it. `none` is a run-time panic. -/
def Run_commands (caseTable : Char → Char) (workspace : String) :
    List Action → Slice compileCommand → Option (Slice compileCommand)
  | [], commands => some commands
  | action :: rest, commands =>
    let args := action.arguments
    if args.length = 0 then Run_commands caseTable workspace rest commands
    else
      let source := findSourceArg caseTable action.mnemonic args
      if source = "" then Run_commands caseTable workspace rest commands
      else
        match findOutputArg args with
        | none => none
        | some output =>
          if output = "" then Run_commands caseTable workspace rest commands
          else
            Run_commands caseTable workspace rest
              (commands.append
                { Directory := workspace, Arguments := args, File := source, Output := output })

/-- The fields of `config.Options`. -/
structure Options where
  BazelBinary : String
  BazelFlags : List String
  Targets : List String
deriving DecidableEq, Repr

/-- The text `fmt.Sprintf("mnemonic(\"(Cpp|Objc|Cuda)Compile\", %s)", tgt)`. -/
def wrapTarget (tgt : String) : String :=
  "mnemonic(\"(Cpp|Objc|Cuda)Compile\", " ++ tgt ++ ")"

/-- The indexed write `xs[i] = v`; it fails when `i` is out of range. -/
def setIndex (xs : List String) (i : Nat) (v : String) : Option (List String) :=
  if i < xs.length then some (xs.set i v) else none

/-- The loop `for i, tgt := range targets` of `assembleBazelArgs`, entered at index `i`
with the targets still to visit. -/
def fillWrapped : List String → Nat → List String → Option (List String)
  | wrapped, _, [] => some wrapped
  | wrapped, i, tgt :: rest =>
    match setIndex wrapped i (wrapTarget tgt) with
    | none => none
    | some wrapped1 => fillWrapped wrapped1 (i + 1) rest

/-- Embedding of `assembleBazelArgs`. `none` is a run-time panic. -/
def assembleBazelArgs (cfg : Options) : Option (List String) :=
  let args := ["aquery"]
  let args := if cfg.BazelFlags.length > 0 then args ++ cfg.BazelFlags else args
  let args := args ++ ["--output=proto"]
  let targets := if cfg.Targets.length = 0 then ["//..."] else cfg.Targets
  match fillWrapped (List.replicate targets.length "") 0 targets with
  | none => none
  | some wrapped => some (args ++ wrapped)

/-! ## `compile_commands.go` -/

/-- Go `json.MarshalIndent(commands, "", "  ")` on a `[]compileCommand`, as documented
by `encoding/json`: a nil slice encodes as the JSON value `null`, any other slice as a
JSON array. `encodeObject` is the (indented) JSON object of one element. -/
def marshalIndent (encodeObject : compileCommand → String) : Slice compileCommand → String
  | Slice.nil => "null"
  | Slice.elems [] => "[]"
  | Slice.elems (c :: cs) =>
    "[\n  " ++ ",\n  ".intercalate ((c :: cs).map encodeObject) ++ "\n]"

/-- The bytes `data` that `writeCompileCommands` hands to `os.WriteFile`. -/
def writeCompileCommands_data (encodeObject : compileCommand → String)
    (commands : Slice compileCommand) : String :=
  marshalIndent encodeObject commands ++ "\n"

/-! ## The specification's vocabulary -/

/-- The first `n` characters of `s` removed. -/
def dropChars (s : String) (n : Nat) : String := ⟨s.data.drop n⟩

/-- The decision table of output detection, for one token and the token after it (if
there is one): what the token yields, rule by rule, the first rule that yields winning. -/
def tokenYield (tok : String) (next : Option String) : Option String :=
  (if tok = "-o" ∨ tok = "--output" then next else none) <|>
  (if HasPrefix tok "-o" ∧ tok.length > 2 then some (dropChars tok 2) else none) <|>
  (if HasPrefix tok "--output=" ∧ dropChars tok 9 ≠ "" then some (dropChars tok 9) else none) <|>
  (if HasPrefix tok "/Fo" ∨ HasPrefix tok "-Fo" then
    (if dropChars tok 3 ≠ "" then some (dropChars tok 3) else next) else none)

/-- The single left-to-right scan of the decision table: the first token that yields a
value decides; the empty string when none does. -/
def outputScan : List String → String
  | [] => ""
  | tok :: rest =>
    match tokenYield tok rest.head? with
    | some v => v
    | none => outputScan rest

/-- Source detection in the specification's words: the argument is not empty, does not
start with `-`, and its lowercased form ends with `.` and one of the extensions. -/
def isSource (caseTable : Char → Char) (exts : List String) (arg : String) : Bool :=
  arg ≠ "" && !HasPrefix arg "-" &&
    exts.any fun ext => HasSuffix (ToLower caseTable arg) ("." ++ ext)

/-- The record an action contributes, in the specification's words: one exists iff the
argument vector is non-empty and both the source and the output found are non-empty. -/
def recordOf (caseTable : Char → Char) (workspace : String) (a : Action) :
    Option compileCommand :=
  match findOutputArg a.arguments with
  | none => none
  | some output =>
    if a.arguments ≠ [] ∧ findSourceArg caseTable a.mnemonic a.arguments ≠ "" ∧ output ≠ "" then
      some
        { Directory := workspace, Arguments := a.arguments,
          File := findSourceArg caseTable a.mnemonic a.arguments, Output := output }
    else none

/-- The loop of `findOutputArg` returns at index `i`: the token there yields an output. -/
def returnsAt (args : List String) (i : Nat) : Bool :=
  match findOutputArgBody args i with
  | Iter.ret _ => true
  | _ => false

/-- An outcome of the decision table, as an outcome of the loop body. -/
def yieldIter : Option String → Iter
  | some v => Iter.ret v
  | none => Iter.next

/-! ## Auxiliary lemmas -/

theorem hasPrefix_iff (s pre : String) :
    HasPrefix s pre = true ↔ ∃ t, s.data = pre.data ++ t := by
  unfold HasPrefix
  rw [List.isPrefixOf_iff_prefix]
  constructor
  · rintro ⟨t, ht⟩
    exact ⟨t, ht.symm⟩
  · rintro ⟨t, ht⟩
    exact ⟨t, ht.symm⟩

theorem len_eq_of_data (s : String) (cs t : List Char) (h : s.data = cs ++ t) :
    len s = String.utf8Len cs + String.utf8Len t := by
  obtain ⟨d⟩ := s
  simp only at h
  subst h
  simp [len]

theorem len_ge_of_hasPrefix (s pre : String) (h : HasPrefix s pre = true) :
    len pre ≤ len s := by
  obtain ⟨t, ht⟩ := (hasPrefix_iff s pre).1 h
  rw [len_eq_of_data s pre.data t ht]
  obtain ⟨d⟩ := pre
  simp [len]

theorem sliceFrom_of_le (s : String) (n : Nat) (h : n ≤ len s) :
    sliceFrom s n = some (dropChars s n) := by
  simp [sliceFrom, dropChars, h]

theorem sliceFrom_of_hasPrefix (s pre : String) (h : HasPrefix s pre = true) :
    sliceFrom s (len pre) = some (dropChars s (len pre)) :=
  sliceFrom_of_le s (len pre) (len_ge_of_hasPrefix s pre h)

/-- Behind the prefix `-o`, more than two bytes is more than two characters. -/
theorem len_gt_two_iff (s : String) (h : HasPrefix s "-o" = true) :
    len s > 2 ↔ s.length > 2 := by
  obtain ⟨t, ht⟩ := (hasPrefix_iff s "-o").1 h
  rw [len_eq_of_data s _ t ht]
  have hl : s.length = 2 + t.length := by
    obtain ⟨d⟩ := s
    simp only at ht
    subst ht
    simp [String.length]
    omega
  have h2 : String.utf8Len ("-o" : String).data = 2 := by decide
  rw [hl, h2]
  cases t with
  | nil => simp
  | cons c cs =>
    have := Char.utf8Size_pos c
    simp
    omega

theorem dropChars_eq_empty_iff (s pre : String) (h : HasPrefix s pre = true) :
    dropChars s pre.data.length = "" ↔ s = pre := by
  obtain ⟨t, ht⟩ := (hasPrefix_iff s pre).1 h
  obtain ⟨d⟩ := s
  obtain ⟨e⟩ := pre
  simp only at ht
  subst ht
  simp [dropChars]
  constructor
  · intro h1
    have : t = [] := by
      have := congrArg String.data h1
      simpa using this
    simp [this]
  · intro h1
    have : t = [] := by
      have := congrArg String.data h1
      simpa using this
    simp [this]

/-- The guarded read of the token after index `i`. -/
theorem readNext_eq (args : List String) (i : Nat) :
    (if i + 1 < args.length then
      (match args[i + 1]? with
        | none => Iter.fault
        | some v => Iter.ret v)
     else Iter.next) = yieldIter args[i + 1]? := by
  by_cases h : i + 1 < args.length
  · simp [h, yieldIter]
  · have : args[i + 1]? = none := List.getElem?_eq_none (by omega)
    simp [h, this, yieldIter]

theorem tokenYield_empty (next : Option String) : tokenYield "" next = none := by
  cases next <;> rfl

theorem tokenYield_dash_o (next : Option String) : tokenYield "-o" next = next := by
  cases next <;> rfl

theorem tokenYield_output (next : Option String) : tokenYield "--output" next = next := by
  cases next <;> rfl

theorem tokenYield_output_eq (next : Option String) : tokenYield "--output=" next = none := by
  cases next <;> rfl

/-- The loop body at a token is the decision table at that token. -/
theorem body_eq_yield (args : List String) (i : Nat) (tok : String)
    (h : args[i]? = some tok) :
    findOutputArgBody args i = yieldIter (tokenYield tok args[i + 1]?) := by
  unfold findOutputArgBody
  rw [h]
  simp only []
  by_cases h0 : tok = ""
  · subst h0
    rw [if_pos rfl, tokenYield_empty]
    rfl
  rw [if_neg h0]
  by_cases h1 : tok = "-o" ∨ tok = "--output"
  · rw [if_pos h1, readNext_eq]
    rcases h1 with rfl | rfl
    · rw [tokenYield_dash_o]
    · rw [tokenYield_output]
  rw [if_neg h1]
  have hlen : ¬ (HasPrefix tok "-o" = true ∧ tok.length > 2) ↔
      ¬ (HasPrefix tok "-o" = true ∧ len tok > 2) := by
    constructor
    · intro hn hc
      exact hn ⟨hc.1, (len_gt_two_iff tok hc.1).1 hc.2⟩
    · intro hn hc
      exact hn ⟨hc.1, (len_gt_two_iff tok hc.1).2 hc.2⟩
  by_cases h2 : HasPrefix tok "-o" = true ∧ len tok > 2
  · rw [if_pos h2, sliceFrom_of_le tok 2 (by omega)]
    have h2c : tok.length > 2 := (len_gt_two_iff tok h2.1).1 h2.2
    simp [tokenYield, h1, h2.1, h2c, yieldIter]
  rw [if_neg h2]
  have h2c := hlen.2 h2
  by_cases h3 : HasPrefix tok "--output=" = true
  · rw [if_pos h3, sliceFrom_of_hasPrefix tok "--output=" h3]
    have h9 : len "--output=" = 9 := by decide
    rw [h9]
    by_cases hv : dropChars tok 9 = ""
    · have htok : tok = "--output=" := (dropChars_eq_empty_iff tok "--output=" h3).1 hv
      subst htok
      rw [tokenYield_output_eq]
      rfl
    · simp [tokenYield, h1, h2c, h3, hv, yieldIter]
  rw [if_neg h3]
  have h3c : ¬ (HasPrefix tok "--output=" = true ∧ dropChars tok 9 ≠ "") := fun hc => h3 hc.1
  by_cases h4 : HasPrefix tok "/Fo" = true
  · rw [if_pos h4]
    unfold msvcValue
    have h3l : len "/Fo" = 3 := by decide
    have := sliceFrom_of_hasPrefix tok "/Fo" h4
    rw [h3l] at this
    rw [this]
    simp only []
    rw [readNext_eq]
    by_cases hv : dropChars tok 3 = ""
    · simp [tokenYield, h1, h2c, h3c, h4, hv]
    · simp [tokenYield, h1, h2c, h3c, h4, hv, yieldIter]
  rw [if_neg h4]
  by_cases h5 : HasPrefix tok "-Fo" = true
  · rw [if_pos h5]
    unfold msvcValue
    have h3l : len "-Fo" = 3 := by decide
    have := sliceFrom_of_hasPrefix tok "-Fo" h5
    rw [h3l] at this
    rw [this]
    simp only []
    rw [readNext_eq]
    by_cases hv : dropChars tok 3 = ""
    · simp [tokenYield, h1, h2c, h3c, h5, hv]
    · simp [tokenYield, h1, h2c, h3c, h5, hv, yieldIter]
  rw [if_neg h5]
  simp [tokenYield, h1, h2c, h3c, h4, h5, yieldIter]

theorem getElem?_append_length (pre : List String) (tok : String) (rest : List String) :
    (pre ++ tok :: rest)[pre.length]? = some tok := by
  rw [List.getElem?_append_right (Nat.le_refl _)]
  simp

theorem outputScan_cons_none (tok : String) (rest : List String)
    (h : tokenYield tok rest.head? = none) : outputScan (tok :: rest) = outputScan rest := by
  show (match tokenYield tok rest.head? with
    | some v => v
    | none => outputScan rest) = outputScan rest
  rw [h]

theorem outputScan_cons_some (tok v : String) (rest : List String)
    (h : tokenYield tok rest.head? = some v) : outputScan (tok :: rest) = v := by
  show (match tokenYield tok rest.head? with
    | some v => v
    | none => outputScan rest) = v
  rw [h]

/-- Entered behind `pre`, the loop computes the table scan of what is left. -/
theorem findOutputArgFrom_append (pre rest : List String) :
    findOutputArgFrom (pre ++ rest) pre.length = some (outputScan rest) := by
  induction rest generalizing pre with
  | nil =>
    rw [findOutputArgFrom]
    simp [outputScan]
  | cons tok rest ih =>
    rw [findOutputArgFrom]
    have hlt : pre.length < (pre ++ tok :: rest).length := by simp
    have hget := getElem?_append_length pre tok rest
    have hnext : (pre ++ tok :: rest)[pre.length + 1]? = rest.head? := by
      rw [List.getElem?_append_right (by omega)]
      simp [List.head?_eq_getElem?]
    rw [if_pos hlt, body_eq_yield _ _ tok hget, hnext]
    cases hy : tokenYield tok rest.head? with
    | some v => simp [yieldIter, outputScan_cons_some tok v rest hy]
    | none =>
      simp only [yieldIter, outputScan_cons_none tok rest hy]
      have := ih (pre ++ [tok])
      simpa using this

theorem findOutputArg_eq_scan (args : List String) :
    findOutputArg args = some (outputScan args) :=
  findOutputArgFrom_append [] args

theorem returnsAt_eq (args : List String) (i : Nat) (tok : String)
    (h : args[i]? = some tok) :
    returnsAt args i = (tokenYield tok args[i + 1]?).isSome := by
  unfold returnsAt
  rw [body_eq_yield args i tok h]
  cases tokenYield tok args[i + 1]? <;> rfl

theorem returnsAt_append (pre : List String) (tok : String) (rest : List String) :
    returnsAt (pre ++ tok :: rest) pre.length = (tokenYield tok rest.head?).isSome := by
  have hget := getElem?_append_length pre tok rest
  have hnext : (pre ++ tok :: rest)[pre.length + 1]? = rest.head? := by
    rw [List.getElem?_append_right (by omega)]
    simp [List.head?_eq_getElem?]
  rw [returnsAt_eq _ _ tok hget, hnext]

/-- Tokens that do not make the loop return are passed over. -/
theorem outputScan_skip (pre rest : List String)
    (h : ∀ i, i < pre.length → returnsAt (pre ++ rest) i = false) :
    outputScan (pre ++ rest) = outputScan rest := by
  induction pre with
  | nil => rfl
  | cons tok pre ih =>
    have h0 := h 0 (by simp)
    have h0a := returnsAt_append [] tok (pre ++ rest)
    simp only [List.nil_append, List.length_nil] at h0a
    have hy : tokenYield tok (pre ++ rest).head? = none := by
      rw [List.cons_append, h0a] at h0
      simpa using h0
    have hrest : ∀ i, i < pre.length → returnsAt (pre ++ rest) i = false := by
      intro i hi
      have hi1 := h (i + 1) (by simp; omega)
      have hlt : i < (pre ++ rest).length := by simp; omega
      have hget : (pre ++ rest)[i]? = some ((pre ++ rest).get ⟨i, hlt⟩) := by
        simp [List.getElem?_eq_getElem hlt]
      rw [returnsAt_eq (pre ++ rest) i _ hget]
      rw [returnsAt_eq (tok :: pre ++ rest) (i + 1) ((pre ++ rest).get ⟨i, hlt⟩)
        (by simp [hget])] at hi1
      simpa using hi1
    rw [List.cons_append, outputScan_cons_none tok (pre ++ rest) hy]
    exact ih hrest

/-- A token that yields nothing in front of some token yields nothing anywhere. -/
theorem tokenYield_none_of_some (tok v : String) (next : Option String)
    (h : tokenYield tok (some v) = none) : tokenYield tok next = none := by
  unfold tokenYield at h ⊢
  by_cases h1 : tok = "-o" ∨ tok = "--output"
  · simp [h1] at h
  by_cases h2 : HasPrefix tok "-o" = true ∧ tok.length > 2
  · simp [h1, h2] at h
  by_cases h3 : HasPrefix tok "--output=" = true ∧ dropChars tok 9 ≠ ""
  · simp [h1, h2, h3] at h
  by_cases h4 : HasPrefix tok "/Fo" = true ∨ HasPrefix tok "-Fo" = true
  · by_cases hv : dropChars tok 3 = ""
    · simp [h1, h2, h3, h4, hv] at h
    · simp [h1, h2, h3, h4, hv] at h
  · simp [h1, h2, h3, h4]

/-- A token with an MSVC prefix falls under no earlier rule of the table. -/
theorem tokenYield_msvc (tok : String) (next : Option String)
    (h : HasPrefix tok "/Fo" = true ∨ HasPrefix tok "-Fo" = true) :
    tokenYield tok next = if dropChars tok 3 ≠ "" then some (dropChars tok 3) else next := by
  have hd1 : ("-o" : String).data = ['-', 'o'] := rfl
  have hd2 : ("--output=" : String).data = ['-', '-', 'o', 'u', 't', 'p', 'u', 't', '='] := rfl
  have hd3 : ("/Fo" : String).data = ['/', 'F', 'o'] := rfl
  have hd4 : ("-Fo" : String).data = ['-', 'F', 'o'] := rfl
  have hdis : tok ≠ "-o" ∧ tok ≠ "--output" ∧ HasPrefix tok "-o" = false ∧
      HasPrefix tok "--output=" = false := by
    rcases h with h | h
    · obtain ⟨t, ht⟩ := (hasPrefix_iff tok "/Fo").1 h
      obtain ⟨d⟩ := tok
      simp only at ht
      subst ht
      refine ⟨?_, ?_, ?_, ?_⟩
      · intro hc
        have := congrArg String.data hc
        simp [hd1, hd3] at this
      · intro hc
        have := congrArg String.data hc
        simp [hd3] at this
      · simp [HasPrefix, hd1, hd3, List.isPrefixOf]
      · simp [HasPrefix, hd2, hd3, List.isPrefixOf]
    · obtain ⟨t, ht⟩ := (hasPrefix_iff tok "-Fo").1 h
      obtain ⟨d⟩ := tok
      simp only at ht
      subst ht
      refine ⟨?_, ?_, ?_, ?_⟩
      · intro hc
        have := congrArg String.data hc
        simp [hd1, hd4] at this
      · intro hc
        have := congrArg String.data hc
        simp [hd4] at this
      · simp [HasPrefix, hd1, hd4, List.isPrefixOf]
      · simp [HasPrefix, hd2, hd4, List.isPrefixOf]
  obtain ⟨n1, n2, n3, n4⟩ := hdis
  by_cases hv : dropChars tok 3 = ""
  · simp [tokenYield, n1, n2, n3, n4, h, hv]
  · simp [tokenYield, n1, n2, n3, n4, h, hv]

/-- With nothing returned before index `pre.length`, the loop's result is the scan of
the rest. -/
theorem findOutputArg_skip (pre rest : List String)
    (h : ∀ i, i < pre.length → returnsAt (pre ++ rest) i = false) :
    findOutputArg (pre ++ rest) = some (outputScan rest) := by
  rw [findOutputArg_eq_scan, outputScan_skip pre rest h]

theorem matchesExt_eq_any (lower : String) (exts : List String) :
    matchesExt lower exts = exts.any fun ext => HasSuffix lower ("." ++ ext) := by
  induction exts with
  | nil => rfl
  | cons ext exts ih =>
    simp only [matchesExt, List.any_cons, ih]
    cases HasSuffix lower ("." ++ ext) <;> simp

/-- The outer loop of `findSourceArg` is a first-match search. -/
theorem findSourceArgLoop_eq_find (caseTable : Char → Char) (exts args : List String) :
    findSourceArgLoop caseTable exts args = (args.find? (isSource caseTable exts)).getD "" := by
  induction args with
  | nil => rfl
  | cons arg rest ih =>
    rw [findSourceArgLoop, List.find?_cons, ih]
    by_cases h1 : arg = "" ∨ HasPrefix arg "-" = true
    · rw [if_pos h1]
      have : isSource caseTable exts arg = false := by
        rcases h1 with h | h
        · simp [isSource, h]
        · simp [isSource, h]
      rw [this]
    · rw [if_neg h1]
      have h1a : arg ≠ "" := fun hc => h1 (Or.inl hc)
      have h1b : HasPrefix arg "-" = false := by
        cases hb : HasPrefix arg "-"
        · rfl
        · exact absurd (Or.inr hb) h1
      have hs : isSource caseTable exts arg = matchesExt (ToLower caseTable arg) exts := by
        rw [matchesExt_eq_any]
        simp [isSource, h1a, h1b]
      rw [hs]
      cases matchesExt (ToLower caseTable arg) exts <;> simp

theorem findSourceArg_unrecognized (caseTable : Char → Char) (mnemonic : String)
    (args : List String) (h1 : mnemonic ≠ "CppCompile") (h2 : mnemonic ≠ "ObjcCompile")
    (h3 : mnemonic ≠ "CudaCompile") : findSourceArg caseTable mnemonic args = "" := by
  have b1 : (mnemonic == "CppCompile") = false := beq_eq_false_iff_ne.2 h1
  have b2 : (mnemonic == "ObjcCompile") = false := beq_eq_false_iff_ne.2 h2
  have b3 : (mnemonic == "CudaCompile") = false := beq_eq_false_iff_ne.2 h3
  have : sourceExtensions.lookup mnemonic = none := by
    simp only [sourceExtensions, List.lookup, b1, b2, b3]
  simp [findSourceArg, this]

/-- A source that was found is one of the arguments. -/
theorem findSourceArg_mem (caseTable : Char → Char) (mnemonic : String) (args : List String)
    (h : findSourceArg caseTable mnemonic args ≠ "") :
    findSourceArg caseTable mnemonic args ∈ args := by
  unfold findSourceArg at h ⊢
  cases hl : sourceExtensions.lookup mnemonic with
  | none => simp [hl] at h
  | some exts =>
    simp only [hl] at h ⊢
    rw [findSourceArgLoop_eq_find] at h ⊢
    cases hf : args.find? (isSource caseTable exts) with
    | none => simp [hf] at h
    | some a =>
      simp only [Option.getD_some]
      exact List.mem_of_find?_eq_some hf

/-- One pass of the loop of `Run`, in terms of the record the action contributes. -/
theorem Run_commands_cons (caseTable : Char → Char) (workspace : String) (a : Action)
    (rest : List Action) (acc : Slice compileCommand) :
    Run_commands caseTable workspace (a :: rest) acc =
      match recordOf caseTable workspace a with
      | none => Run_commands caseTable workspace rest acc
      | some r => Run_commands caseTable workspace rest (acc.append r) := by
  rw [Run_commands]
  unfold recordOf
  rw [findOutputArg_eq_scan]
  simp only []
  by_cases h0 : a.arguments = []
  · simp [h0]
  · have h0l : ¬ a.arguments.length = 0 := by simpa using h0
    rw [if_neg h0l]
    by_cases hs : findSourceArg caseTable a.mnemonic a.arguments = ""
    · simp [hs]
    · rw [if_neg hs]
      by_cases ho : outputScan a.arguments = ""
      · simp [ho]
      · simp [h0, hs, ho]

theorem Run_commands_drop (caseTable : Char → Char) (workspace : String) (a : Action)
    (rest : List Action) (acc : Slice compileCommand)
    (h : recordOf caseTable workspace a = none) :
    Run_commands caseTable workspace (a :: rest) acc =
      Run_commands caseTable workspace rest acc := by
  rw [Run_commands_cons, h]

theorem recordOf_of_source_empty (caseTable : Char → Char) (workspace : String) (a : Action)
    (h : findSourceArg caseTable a.mnemonic a.arguments = "") :
    recordOf caseTable workspace a = none := by
  unfold recordOf
  rw [findOutputArg_eq_scan]
  simp [h]

theorem recordOf_of_output_empty (caseTable : Char → Char) (workspace : String) (a : Action)
    (h : findOutputArg a.arguments = some "") :
    recordOf caseTable workspace a = none := by
  unfold recordOf
  rw [h]
  simp

theorem toList_foldl_append (acc : Slice compileCommand) (rs : List compileCommand) :
    (List.foldl Slice.append acc rs).toList = acc.toList ++ rs := by
  induction rs generalizing acc with
  | nil => simp
  | cons r rs ih =>
    rw [List.foldl_cons, ih]
    simp [Slice.append, Slice.toList]

/-- The loop of `Run` appends, in order, the records of the actions that have one. -/
theorem Run_commands_eq (caseTable : Char → Char) (workspace : String)
    (actions : List Action) (acc : Slice compileCommand) :
    Run_commands caseTable workspace actions acc =
      some (List.foldl Slice.append acc (actions.filterMap (recordOf caseTable workspace))) := by
  induction actions generalizing acc with
  | nil => rfl
  | cons a rest ih =>
    rw [Run_commands_cons]
    cases hr : recordOf caseTable workspace a with
    | none => simp [List.filterMap_cons, hr, ih]
    | some r => simp [List.filterMap_cons, hr, ih]

theorem recordOf_some (caseTable : Char → Char) (workspace : String) (a : Action)
    (r : compileCommand) (h : recordOf caseTable workspace a = some r) :
    r.File ≠ "" ∧ r.Output ≠ "" ∧ r.File ∈ r.Arguments := by
  unfold recordOf at h
  rw [findOutputArg_eq_scan] at h
  simp only [] at h
  by_cases hc : a.arguments ≠ [] ∧ findSourceArg caseTable a.mnemonic a.arguments ≠ "" ∧
      outputScan a.arguments ≠ ""
  · rw [if_pos hc] at h
    have hr : r = _ := (Option.some.inj h).symm
    subst hr
    exact ⟨hc.2.1, hc.2.2, findSourceArg_mem caseTable a.mnemonic a.arguments hc.2.1⟩
  · rw [if_neg hc] at h
    exact absurd h (by simp)

theorem fillWrapped_eq (done targets : List String) :
    fillWrapped (done ++ List.replicate targets.length "") done.length targets =
      some (done ++ targets.map wrapTarget) := by
  induction targets generalizing done with
  | nil => simp [fillWrapped]
  | cons tgt rest ih =>
    have hset : setIndex (done ++ List.replicate (tgt :: rest).length "") done.length
        (wrapTarget tgt) = some ((done ++ [wrapTarget tgt]) ++ List.replicate rest.length "") := by
      unfold setIndex
      rw [if_pos (by simp)]
      simp [List.replicate_succ, List.set_append_right]
    rw [fillWrapped, hset]
    have := ih (done ++ [wrapTarget tgt])
    simp only [List.length_append, List.length_singleton] at this
    simp only [this]
    simp

/-! ## Output detection -/

/-- C3: `findOutputArg` equals the single left-to-right first-match scan of the
decision table (`outputScan` over `tokenYield`): the first token that yields a value
decides the result, and the result is the empty string when no token yields one. On
`["-o", "a.o", "--output=b.o"]` it gives `"a.o"`. -/
theorem findOutputArg_refines_outputScan :
    (∀ args : List String, findOutputArg args = some (outputScan args)) ∧
    findOutputArg ["-o", "a.o", "--output=b.o"] = some "a.o" := by
  refine ⟨findOutputArg_eq_scan, ?_⟩
  rw [findOutputArg_eq_scan]
  decide

/-- C6: in an argument vector in which no earlier token makes the loop return, a token
starting with `/Fo` or `-Fo` makes `findOutputArg` return the token's remainder after
the 3-character prefix when that remainder is non-empty, and otherwise the following
token when there is one. For `CppCompile` and `["cl","/c","a.cpp","/Foa.obj"]` the
source is `"a.cpp"` and the output `"a.obj"`. -/
theorem findOutputArg_msvc (caseTable : Char → Char) :
    (∀ (pre : List String) (tok : String) (post : List String),
      (HasPrefix tok "/Fo" = true ∨ HasPrefix tok "-Fo" = true) →
      (∀ i, i < pre.length → returnsAt (pre ++ tok :: post) i = false) →
      (dropChars tok 3 ≠ "" → findOutputArg (pre ++ tok :: post) = some (dropChars tok 3)) ∧
      (dropChars tok 3 = "" → ∀ (nxt : String) (rest : List String), post = nxt :: rest →
        findOutputArg (pre ++ tok :: post) = some nxt)) ∧
    findSourceArg caseTable "CppCompile" ["cl", "/c", "a.cpp", "/Foa.obj"] = "a.cpp" ∧
    findOutputArg ["cl", "/c", "a.cpp", "/Foa.obj"] = some "a.obj" := by
  refine ⟨?_, rfl, ?_⟩
  · intro pre tok post hp hno
    rw [findOutputArg_skip pre (tok :: post) hno]
    constructor
    · intro hv
      rw [outputScan_cons_some tok (dropChars tok 3) post]
      rw [tokenYield_msvc tok _ hp, if_pos hv]
    · intro hv nxt rest hpost
      subst hpost
      rw [outputScan_cons_some tok nxt (nxt :: rest)]
      rw [tokenYield_msvc tok _ hp, if_neg (by simpa using hv)]
      rfl
  · rw [findOutputArg_eq_scan]
    decide

/-- Witness of C6: the vector `["cl", "/Fo", "a.obj"]`, in which `/Fo` carries no value
of its own, and the vector `["cl", "-Fob.obj", "x"]`. -/
theorem findOutputArg_msvc_witness :
    findOutputArg (["cl"] ++ "/Fo" :: ["a.obj"]) = some "a.obj" ∧
    findOutputArg (["cl"] ++ "-Fob.obj" :: ["x"]) = some (dropChars "-Fob.obj" 3) :=
  ⟨((findOutputArg_msvc id).1 ["cl"] "/Fo" ["a.obj"] (Or.inl (by decide)) (by decide)).2
      (by decide) "a.obj" [] rfl,
   ((findOutputArg_msvc id).1 ["cl"] "-Fob.obj" ["x"] (Or.inr (by decide)) (by decide)).1
      (by decide)⟩

/-- C7: a token exactly equal to `--output=` is no output match and does not stop the
scan. Whenever no token of `pre` makes the loop return in the vector
`pre ++ ["--output="] ++ post`, that vector and `pre ++ post` have the same result; in
particular `["--output=", "-o", "x.o"]` gives `"x.o"` and `["--output="]` gives nothing. -/
theorem findOutputArg_empty_output_eq :
    (∀ (pre post : List String),
      (∀ i, i < pre.length → returnsAt (pre ++ ["--output="] ++ post) i = false) →
      findOutputArg (pre ++ ["--output="] ++ post) = findOutputArg (pre ++ post)) ∧
    findOutputArg ["--output=", "-o", "x.o"] = some "x.o" ∧
    findOutputArg ["--output="] = some "" := by
  refine ⟨?_, ?_, ?_⟩
  · intro pre post hno
    have hno1 : ∀ i, i < pre.length → returnsAt (pre ++ "--output=" :: post) i = false := by
      simpa using hno
    have hL : findOutputArg (pre ++ ["--output="] ++ post) = some (outputScan post) := by
      rw [List.append_assoc]
      show findOutputArg (pre ++ "--output=" :: post) = _
      rw [findOutputArg_skip pre _ hno1,
        outputScan_cons_none "--output=" post (tokenYield_output_eq _)]
    have hno2 : ∀ i, i < pre.length → returnsAt (pre ++ post) i = false := by
      intro i hi
      have hget : (pre ++ post)[i]? = some (pre.get ⟨i, hi⟩) := by
        rw [List.getElem?_append_left hi]
        simp [List.getElem?_eq_getElem hi]
      have hgetL : (pre ++ "--output=" :: post)[i]? = some (pre.get ⟨i, hi⟩) := by
        rw [List.getElem?_append_left hi]
        simp [List.getElem?_eq_getElem hi]
      have hi1 := hno1 i hi
      rw [returnsAt_eq _ i _ hgetL] at hi1
      rw [returnsAt_eq _ i _ hget]
      by_cases hlast : i + 1 < pre.length
      · rw [List.getElem?_append_left hlast] at hi1 ⊢
        exact hi1
      · have hii : i + 1 = pre.length := by omega
        rw [hii, getElem?_append_length] at hi1
        have hnone : tokenYield (pre.get ⟨i, hi⟩) (some "--output=") = none := by
          simpa using hi1
        rw [tokenYield_none_of_some _ _ _ hnone]
        rfl
    rw [hL, findOutputArg_skip pre post hno2]
  · rw [findOutputArg_eq_scan]
    decide
  · rw [findOutputArg_eq_scan]
    decide

/-- Behind a bare `-o` the token `--output=` stands in value position: it is what `-o`
yields, not a token the scan examines. -/
theorem findOutputArg_value_position :
    findOutputArg ["-o", "--output="] = some "--output=" ∧ findOutputArg ["-o"] = some "" := by
  constructor
  · rw [findOutputArg_eq_scan]
    decide
  · rw [findOutputArg_eq_scan]
    decide

/-- Witness of C7, with `pre = ["cc", "-c"]` and `post = ["-ox.o"]`. -/
theorem findOutputArg_empty_output_eq_witness :
    findOutputArg (["cc", "-c"] ++ ["--output="] ++ ["-ox.o"]) =
      findOutputArg (["cc", "-c"] ++ ["-ox.o"]) :=
  findOutputArg_empty_output_eq.1 ["cc", "-c"] ["-ox.o"] (by decide)

/-- C8: `findOutputArg` is total: on every argument vector it returns a string, no read
past the end of the vector (or of a token) ever happening. When the last token is `-o`
or `--output` and no earlier token makes the loop return, it returns the empty string,
and the loop of `Run` passes over the action without a record and without a failure. -/
theorem findOutputArg_total_trailing_flag :
    (∀ args : List String, ∃ out, findOutputArg args = some out) ∧
    (∀ (pre : List String) (last : String), (last = "-o" ∨ last = "--output") →
      (∀ i, i < pre.length → returnsAt (pre ++ [last]) i = false) →
      findOutputArg (pre ++ [last]) = some "" ∧
      ∀ (caseTable : Char → Char) (workspace mnemonic : String) (tail : List Action)
        (acc : Slice compileCommand),
        Run_commands caseTable workspace (⟨mnemonic, pre ++ [last]⟩ :: tail) acc =
          Run_commands caseTable workspace tail acc) := by
  refine ⟨fun args => ⟨outputScan args, findOutputArg_eq_scan args⟩, ?_⟩
  intro pre last hlast hno
  have hout : findOutputArg (pre ++ [last]) = some "" := by
    rw [findOutputArg_skip pre [last] hno]
    rcases hlast with rfl | rfl
    · rfl
    · rfl
  refine ⟨hout, ?_⟩
  intro caseTable workspace mnemonic tail acc
  exact Run_commands_drop _ _ _ _ _ (recordOf_of_output_empty _ _ _ hout)

/-- Witness of C8: the vector `["cc", "a.c", "-o"]`. -/
theorem findOutputArg_total_trailing_flag_witness :
    findOutputArg (["cc", "a.c"] ++ ["-o"]) = some "" :=
  (findOutputArg_total_trailing_flag.2 ["cc", "a.c"] "-o" (Or.inl rfl) (by decide)).1

/-! ## Source detection -/

/-- C2: for each recognized mnemonic `findSourceArg` returns the first argument, in
vector order, that is non-empty, does not start with `-` and whose lowercased form ends
with `.` and one of the mnemonic's extensions (`CppCompile`: c, cc, cpp, cxx, c++;
`ObjcCompile`: those and m, mm; `CudaCompile`: cu, cc, cpp), as it stands in the vector,
and the empty string when no argument qualifies. For `CppCompile` and
`["-Ifoo.cpp", "bar.cpp"]` it gives `"bar.cpp"`. -/
theorem findSourceArg_first_source (caseTable : Char → Char) :
    (∀ args : List String,
      findSourceArg caseTable "CppCompile" args =
        (args.find? (isSource caseTable ["c", "cc", "cpp", "cxx", "c++"])).getD "") ∧
    (∀ args : List String,
      findSourceArg caseTable "ObjcCompile" args =
        (args.find? (isSource caseTable ["c", "cc", "cpp", "cxx", "c++", "m", "mm"])).getD "") ∧
    (∀ args : List String,
      findSourceArg caseTable "CudaCompile" args =
        (args.find? (isSource caseTable ["cu", "cc", "cpp"])).getD "") ∧
    findSourceArg caseTable "CppCompile" ["-Ifoo.cpp", "bar.cpp"] = "bar.cpp" := by
  refine ⟨?_, ?_, ?_, rfl⟩
  · intro args
    exact findSourceArgLoop_eq_find caseTable _ args
  · intro args
    exact findSourceArgLoop_eq_find caseTable _ args
  · intro args
    exact findSourceArgLoop_eq_find caseTable _ args

/-- C4: for a mnemonic that is none of `CppCompile`, `ObjcCompile`, `CudaCompile`, and
any argument vector, `findSourceArg` returns the empty string and the loop of `Run`
emits no record for the action: it leaves the slice `commands` as it found it. -/
theorem findSourceArg_unrecognized_mnemonic (caseTable : Char → Char) (mnemonic : String)
    (args : List String) (h1 : mnemonic ≠ "CppCompile") (h2 : mnemonic ≠ "ObjcCompile")
    (h3 : mnemonic ≠ "CudaCompile") :
    findSourceArg caseTable mnemonic args = "" ∧
    ∀ (workspace : String) (tail : List Action) (acc : Slice compileCommand),
      Run_commands caseTable workspace (⟨mnemonic, args⟩ :: tail) acc =
        Run_commands caseTable workspace tail acc := by
  have hs := findSourceArg_unrecognized caseTable mnemonic args h1 h2 h3
  refine ⟨hs, ?_⟩
  intro workspace tail acc
  exact Run_commands_drop _ _ _ _ _ (recordOf_of_source_empty _ _ ⟨mnemonic, args⟩ hs)

/-- Witness of C4: a `GoCompile` action whose arguments name a C++ source and an output. -/
theorem findSourceArg_unrecognized_mnemonic_witness :
    findSourceArg id "GoCompile" ["go", "a.cc", "-o", "a.o"] = "" ∧
    Run_commands id "/ws" [⟨"GoCompile", ["go", "a.cc", "-o", "a.o"]⟩] Slice.nil =
      Run_commands id "/ws" [] Slice.nil :=
  ⟨(findSourceArg_unrecognized_mnemonic id "GoCompile" ["go", "a.cc", "-o", "a.o"]
      (by decide) (by decide) (by decide)).1,
   (findSourceArg_unrecognized_mnemonic id "GoCompile" ["go", "a.cc", "-o", "a.o"]
      (by decide) (by decide) (by decide)).2 "/ws" [] Slice.nil⟩

/-! ## The loop of `Run` -/

/-- C1: for every workspace and every list of actions the loop of `Run` ends, and the
records it has built are exactly the order-preserving filter-map of the actions under
`recordOf`: an action contributes a record iff its argument vector is non-empty and
`findSourceArg` and `findOutputArg` both give a non-empty string, the record carrying
the workspace, the whole argument vector, that source and that output. The two actions
of the end-to-end scenario give the one record of the `CppCompile` action. -/
theorem Run_commands_filterMap (caseTable : Char → Char) (workspace : String)
    (actions : List Action) :
    (Run_commands caseTable workspace actions Slice.nil).map Slice.toList =
      some (actions.filterMap (recordOf caseTable workspace)) ∧
    (Run_commands caseTable "/ws"
        [⟨"CppCompile", ["cc1", "-c", "src/a.cc", "-o", "out/a.o"]⟩,
         ⟨"GoCompile", ["go", "build"]⟩] Slice.nil).map Slice.toList =
      some [{ Directory := "/ws", Arguments := ["cc1", "-c", "src/a.cc", "-o", "out/a.o"],
              File := "src/a.cc", Output := "out/a.o" }] := by
  have hgen : ∀ acts : List Action,
      (Run_commands caseTable workspace acts Slice.nil).map Slice.toList =
        some (acts.filterMap (recordOf caseTable workspace)) := by
    intro acts
    rw [Run_commands_eq, Option.map_some', toList_foldl_append]
    rfl
  refine ⟨hgen actions, ?_⟩
  rw [Run_commands_eq, Option.map_some', toList_foldl_append]
  have h1 : recordOf caseTable "/ws" ⟨"CppCompile", ["cc1", "-c", "src/a.cc", "-o", "out/a.o"]⟩ =
      some { Directory := "/ws", Arguments := ["cc1", "-c", "src/a.cc", "-o", "out/a.o"],
             File := "src/a.cc", Output := "out/a.o" } := by
    unfold recordOf
    rw [findOutputArg_eq_scan]
    rfl
  have h2 : recordOf caseTable "/ws" ⟨"GoCompile", ["go", "build"]⟩ = none := by
    unfold recordOf
    rw [findOutputArg_eq_scan]
    rfl
  simp [List.filterMap_cons, h1, h2, Slice.toList]

/-- C10: every record emitted by the loop of `Run` has a non-empty file and a non-empty
output, and its file is one of its own arguments. An action in which the first token to
make the loop of `findOutputArg` return is `-o` or `--output` followed by the empty
string yields no record, whatever comes later; so an action whose arguments are
`["a.c", "-o", ""]` followed by anything yields none, for every mnemonic, a later token
carrying an output (as in `rest = ["-ob.o"]`) making no difference. -/
theorem Run_commands_records (caseTable : Char → Char) (workspace : String) :
    (∀ (actions : List Action) (commands : Slice compileCommand),
      Run_commands caseTable workspace actions Slice.nil = some commands →
      ∀ r ∈ commands.toList, r.File ≠ "" ∧ r.Output ≠ "" ∧ r.File ∈ r.Arguments) ∧
    (∀ (pre : List String) (flag : String) (post : List String),
      (flag = "-o" ∨ flag = "--output") →
      (∀ i, i < pre.length → returnsAt (pre ++ flag :: "" :: post) i = false) →
      ∀ (mnemonic : String) (tail : List Action) (acc : Slice compileCommand),
        Run_commands caseTable workspace (⟨mnemonic, pre ++ flag :: "" :: post⟩ :: tail) acc =
          Run_commands caseTable workspace tail acc) ∧
    (∀ (mnemonic : String) (rest : List String) (tail : List Action)
      (acc : Slice compileCommand),
      Run_commands caseTable workspace (⟨mnemonic, ["a.c", "-o", ""] ++ rest⟩ :: tail) acc =
        Run_commands caseTable workspace tail acc) ∧
    Run_commands caseTable workspace [⟨"CppCompile", ["a.c", "-o", "", "-ob.o"]⟩] Slice.nil =
      some Slice.nil := by
  have hgen : ∀ (pre : List String) (flag : String) (post : List String),
      (flag = "-o" ∨ flag = "--output") →
      (∀ i, i < pre.length → returnsAt (pre ++ flag :: "" :: post) i = false) →
      ∀ (mnemonic : String) (tail : List Action) (acc : Slice compileCommand),
        Run_commands caseTable workspace (⟨mnemonic, pre ++ flag :: "" :: post⟩ :: tail) acc =
          Run_commands caseTable workspace tail acc := by
    intro pre flag post hflag hno mnemonic tail acc
    apply Run_commands_drop
    apply recordOf_of_output_empty
    show findOutputArg (pre ++ flag :: "" :: post) = some ""
    rw [findOutputArg_skip pre _ hno]
    rcases hflag with rfl | rfl
    · rw [outputScan_cons_some "-o" "" _ (by rfl)]
    · rw [outputScan_cons_some "--output" "" _ (by rfl)]
  have hdrop : ∀ (mnemonic : String) (rest : List String) (tail : List Action)
      (acc : Slice compileCommand),
      Run_commands caseTable workspace (⟨mnemonic, ["a.c", "-o", ""] ++ rest⟩ :: tail) acc =
        Run_commands caseTable workspace tail acc := by
    intro mnemonic rest tail acc
    apply Run_commands_drop
    apply recordOf_of_output_empty
    show findOutputArg ("a.c" :: "-o" :: "" :: rest) = some ""
    rw [findOutputArg_eq_scan]
    rw [outputScan_cons_none "a.c" _ (by rfl)]
    rw [outputScan_cons_some "-o" "" _ (by rfl)]
  refine ⟨?_, hgen, hdrop, ?_⟩
  · intro actions commands hrun r hr
    rw [Run_commands_eq] at hrun
    have hc : commands = _ := (Option.some.inj hrun).symm
    subst hc
    rw [toList_foldl_append] at hr
    have hr1 : r ∈ actions.filterMap (recordOf caseTable workspace) := by
      simpa [Slice.toList] using hr
    obtain ⟨a, _, ha⟩ := List.mem_filterMap.1 hr1
    exact recordOf_some caseTable workspace a r ha
  · exact hdrop "CppCompile" ["-ob.o"] [] Slice.nil

/-- Witness of C10: the record of the one `CppCompile` action `cc -c a.c -o a.o`, and
the action `cc a.c -o "" -ob.o`, which leaves no record. -/
theorem Run_commands_records_witness :
    Run_commands id "/ws" [⟨"CppCompile", ["cc", "-c", "a.c", "-o", "a.o"]⟩] Slice.nil =
        some (Slice.elems [⟨"/ws", ["cc", "-c", "a.c", "-o", "a.o"], "a.c", "a.o"⟩]) ∧
    ("a.c" ≠ "" ∧ "a.o" ≠ "" ∧ "a.c" ∈ ["cc", "-c", "a.c", "-o", "a.o"]) ∧
    Run_commands id "/ws" [⟨"CppCompile", ["cc", "a.c"] ++ "-o" :: "" :: ["-ob.o"]⟩] Slice.nil =
      Run_commands id "/ws" [] Slice.nil :=
  have hrun : Run_commands id "/ws" [⟨"CppCompile", ["cc", "-c", "a.c", "-o", "a.o"]⟩]
      Slice.nil = some (Slice.elems [⟨"/ws", ["cc", "-c", "a.c", "-o", "a.o"], "a.c", "a.o"⟩]) := by
    simp [Run_commands, findOutputArg, findOutputArgFrom, Slice.append, Slice.toList]
    decide
  ⟨hrun,
   (Run_commands_records id "/ws").1 _ _ hrun
    ⟨"/ws", ["cc", "-c", "a.c", "-o", "a.o"], "a.c", "a.o"⟩ (by simp [Slice.toList]),
   (Run_commands_records id "/ws").2.1 ["cc", "a.c"] "-o" ["-ob.o"] (Or.inl rfl) (by decide)
    "CppCompile" [] Slice.nil⟩

/-! ## The query arguments -/

/-- C9: `assembleBazelArgs` returns `["aquery"] ++ BazelFlags ++ ["--output=proto"] ++ W`,
where `W` holds one element per target, in the order of the targets and with repeated
targets kept, the element for target `t` being the text
`mnemonic("(Cpp|Objc|Cuda)Compile", t)`; an empty target list stands for the single
pattern `//...`. -/
theorem assembleBazelArgs_eq (cfg : Options) :
    assembleBazelArgs cfg =
      some (["aquery"] ++ cfg.BazelFlags ++ ["--output=proto"] ++
        (if cfg.Targets = [] then ["//..."] else cfg.Targets).map
          (fun t => "mnemonic(\"(Cpp|Objc|Cuda)Compile\", " ++ t ++ ")")) ∧
    assembleBazelArgs ⟨"", ["-c", "opt"], ["//a", "//b", "//a"]⟩ =
      some ["aquery", "-c", "opt", "--output=proto",
        "mnemonic(\"(Cpp|Objc|Cuda)Compile\", //a)",
        "mnemonic(\"(Cpp|Objc|Cuda)Compile\", //b)",
        "mnemonic(\"(Cpp|Objc|Cuda)Compile\", //a)"] ∧
    assembleBazelArgs ⟨"", [], []⟩ =
      some ["aquery", "--output=proto", "mnemonic(\"(Cpp|Objc|Cuda)Compile\", //...)"] := by
  refine ⟨?_, by decide, by decide⟩
  unfold assembleBazelArgs
  simp only []
  have hfill : ∀ targets : List String,
      fillWrapped (List.replicate targets.length "") 0 targets =
        some (targets.map wrapTarget) := by
    intro targets
    have := fillWrapped_eq [] targets
    simpa using this
  have hflags : (if cfg.BazelFlags.length > 0 then ["aquery"] ++ cfg.BazelFlags else ["aquery"]) =
      ["aquery"] ++ cfg.BazelFlags := by
    cases cfg.BazelFlags <;> simp
  have htargets : (if cfg.Targets.length = 0 then ["//..."] else cfg.Targets) =
      (if cfg.Targets = [] then ["//..."] else cfg.Targets) := by
    cases cfg.Targets <;> simp
  rw [hfill, hflags, htargets]
  rfl

/-! ## The written bytes -/

/-- C5 (what the code does): on an empty action list the loop of `Run` leaves `commands`
the nil slice, with no record in it, and the bytes `writeCompileCommands` produces for
it are `null` and a newline, which is not `[]` and a newline; only a non-nil empty
slice is written as `[]`. -/
theorem writeCompileCommands_empty (encodeObject : compileCommand → String)
    (caseTable : Char → Char) (workspace : String) :
    Run_commands caseTable workspace [] Slice.nil = some Slice.nil ∧
    (Slice.nil : Slice compileCommand).toList = [] ∧
    writeCompileCommands_data encodeObject Slice.nil = "null\n" ∧
    writeCompileCommands_data encodeObject Slice.nil ≠ "[]\n" ∧
    writeCompileCommands_data encodeObject (Slice.elems []) = "[]\n" := by
  refine ⟨rfl, rfl, rfl, ?_, rfl⟩
  show ("null" ++ "\n" : String) ≠ "[]\n"
  decide

end BazelCompdb
